import Mathlib

/-!
Verification of the llm-prompt-tag template utility.

The development shallowly embeds the two source modules:

* `prompt` (src/prompt.ts) — the whitespace-normalizing, optionally headered
  tagged-template renderer;
* `makePrompt` (src/makePrompt.ts) — the formatter registry that transforms each
  interpolated value through an ordered list of `(typeGuard, formatter)` pairs,
  with array aggregation and object/primitive fallbacks, before delegating to
  `prompt`.

Strings are modeled as `List Char` at the normalization level (wrapped into
`String`), JavaScript values as the inductive `JSVal`.
-/

/-- The character class matched by JavaScript's `\s` (and removed by
`String.prototype.trim`): tab through carriage return, space, NBSP, and the
Unicode space separators, line/paragraph separators and BOM. -/
def isWS (c : Char) : Bool :=
  let n := c.toNat
  n = 0x20 || (0x9 ≤ n && n ≤ 0xD) || n = 0xA0 || n = 0x1680 ||
  (0x2000 ≤ n && n ≤ 0x200A) || n = 0x2028 || n = 0x2029 || n = 0x202F ||
  n = 0x205F || n = 0x3000 || n = 0xFEFF

/-- Number of newline characters in a character list. -/
def countNl (l : List Char) : Nat := l.countP (fun c => c = '\n')

/-- The part of `l` strictly after its last `'\n'` (all of `l` if it has no
newline).  Used to delimit the end of a greedy `/\n\s*\n\s*\n/` match. -/
def afterLastNl (l : List Char) : List Char :=
  (l.reverse.takeWhile (fun c => ¬ (c = '\n'))).reverse

/-- Step 1 of the renderer's cleanup: `.replace(/\n\s*\n\s*\n/g, '\n\n')`.
A match of that regex is found at each `'\n'` whose following maximal
whitespace run still contains at least two more newlines; by greediness the
match extends through the last newline of the run and is replaced by two
newlines, scanning resuming after it. -/
def collapseBlankLines (l : List Char) : List Char :=
  match l with
  | [] => []
  | c :: rest =>
    if h : c = '\n' ∧ 2 ≤ countNl (rest.takeWhile isWS) then
      '\n' :: '\n' ::
        collapseBlankLines (afterLastNl (rest.takeWhile isWS) ++ rest.dropWhile isWS)
    else
      c :: collapseBlankLines rest
termination_by l.length
decreasing_by
  · have htd : (rest.takeWhile isWS).length + (rest.dropWhile isWS).length
        = rest.length := by
      rw [← List.length_append, List.takeWhile_append_dropWhile]
    have hle : (afterLastNl (rest.takeWhile isWS)).length + 2
        ≤ (rest.takeWhile isWS).length := by
      have h2 := h.2
      unfold afterLastNl countNl at *
      have hsplit : ((rest.takeWhile isWS).reverse.takeWhile (fun c => ¬ (c = '\n'))).length
            + ((rest.takeWhile isWS).reverse.dropWhile (fun c => ¬ (c = '\n'))).length
          = (rest.takeWhile isWS).length := by
        rw [← List.length_append, List.takeWhile_append_dropWhile, List.length_reverse]
      have hcnt : ((rest.takeWhile isWS).reverse.takeWhile (fun c => ¬ (c = '\n'))).countP
            (fun c => decide (c = '\n')) = 0 := by
        rw [List.countP_eq_zero]
        intro a ha
        have := List.mem_takeWhile_imp ha
        simpa using this
      have hcnt2 : ((rest.takeWhile isWS).reverse.dropWhile (fun c => ¬ (c = '\n'))).countP
            (fun c => decide (c = '\n'))
          = ((rest.takeWhile isWS)).countP (fun c => decide (c = '\n')) := by
        conv_rhs => rw [← List.countP_reverse,
          ← List.takeWhile_append_dropWhile (p := fun c => ¬ (c = '\n'))
            (l := (rest.takeWhile isWS).reverse)]
        rw [List.countP_append, hcnt]
        simp
      have hlen2 : ((rest.takeWhile isWS)).countP (fun c => decide (c = '\n'))
          ≤ ((rest.takeWhile isWS).reverse.dropWhile (fun c => ¬ (c = '\n'))).length := by
        rw [← hcnt2]; exact List.countP_le_length _
      simp only [List.length_reverse]
      omega
    simp only [List.length_append, List.length_cons]
    omega
  · simp only [List.length_cons]
    omega

/-- Step 3 of the cleanup: `.replace(/[ \t]+/g, ' ')` — every maximal run of
spaces and tabs is replaced by a single space.  The single space is emitted at
the end of each run. -/
def collapseSpaceTab : List Char → List Char
  | [] => []
  | c :: rest =>
    if c = ' ' ∨ c = '\t' then
      match rest with
      | [] => [' ']
      | d :: _ =>
        if d = ' ' ∨ d = '\t' then collapseSpaceTab rest
        else ' ' :: collapseSpaceTab rest
    else
      c :: collapseSpaceTab rest

/-- Step 4 of the cleanup: `.replace(/\n /g, '\n')` — every (non-overlapping,
left-to-right) occurrence of a newline followed by a space loses the space. -/
def dropSpaceAfterNl : List Char → List Char
  | [] => []
  | [c] => [c]
  | a :: b :: rest =>
    if a = '\n' ∧ b = ' ' then '\n' :: dropSpaceAfterNl rest
    else a :: dropSpaceAfterNl (b :: rest)

/-- Steps 2 and 5 of the cleanup: `.replace(/^\s+|\s+$/g, '')` and `.trim()`
both remove the maximal whitespace runs at the two ends of the string. -/
def trimWS (l : List Char) : List Char :=
  ((l.dropWhile isWS).reverse.dropWhile isWS).reverse

/-- The full whitespace-normalization pipeline of `prompt`, in source order:
collapse blank-line runs, strip the ends, collapse space/tab runs, drop the
space after each newline, and a final trim. -/
def normalizeChars (l : List Char) : List Char :=
  trimWS (dropSpaceAfterNl (collapseSpaceTab (trimWS (collapseBlankLines l))))

/-- String-level normalization used by the renderer. -/
def normalizeWS (s : String) : String := ⟨normalizeChars s.data⟩

/-- JavaScript `String.prototype.trim` on the model's strings. -/
def jsTrim (s : String) : String := ⟨trimWS s.data⟩

/-- A JavaScript value as far as this library observes it: `undefined`, `null`,
booleans, (integral) numbers, strings, arrays, and other objects.  An object is
modeled by the string its `toString` method produces (objects that only inherit
`Object.prototype.toString` carry `"[object Object]"`). -/
inductive JSVal where
  | undef : JSVal
  | null : JSVal
  | bool (b : Bool) : JSVal
  | num (n : Int) : JSVal
  | str (s : String) : JSVal
  | arr (elems : List JSVal) : JSVal
  | obj (ts : String) : JSVal

mutual
/-- JavaScript `String(v)` on the modeled values (numbers are modeled as
integers, so their decimal rendering is used; an array joins its elements with
commas, rendering `undefined`/`null` elements as empty). -/
def jsToString : JSVal → String
  | .undef => "undefined"
  | .null => "null"
  | .bool b => if b then "true" else "false"
  | .num n => toString n
  | .str s => s
  | .obj ts => ts
  | .arr xs => String.intercalate "," (jsArrayElems xs)

/-- Element renderings used by `String(array)`. -/
def jsArrayElems : List JSVal → List String
  | [] => []
  | v :: vs =>
    (match v with
     | .undef => ""
     | .null => ""
     | w => jsToString w) :: jsArrayElems vs
end

/-- The renderer's per-slot text:
`value !== undefined && value !== null ? String(value) : ''`, with `none`
standing for an index past the end of the values array. -/
def valueText : Option JSVal → String
  | none => ""
  | some .undef => ""
  | some .null => ""
  | some v => jsToString v

/-- The `strings.reduce` concatenation of `prompt`: fragment `i` is followed by
the text of value `i`. -/
def promptConcat : List String → List JSVal → String
  | [], _ => ""
  | s :: ss, vs => s ++ valueText vs.head? ++ promptConcat ss vs.tail

/-- The renderer `prompt(header, condition)` applied to fragments and values
(src/prompt.ts): returns `""` when the condition is false, otherwise
concatenates, normalizes whitespace, returns `""` for empty content, and wraps
with `==== header ====` markers when the header is present and non-blank. -/
def prompt (header : Option String) (condition : Bool)
    (strings : List String) (values : List JSVal) : String :=
  if !condition then ""
  else
    let content := normalizeWS (promptConcat strings values)
    if content = "" then ""
    else
      match header with
      | some h =>
        if h ≠ "" ∧ jsTrim h ≠ "" then
          "\n==== " ++ h ++ " ====\n" ++ content ++ "\n==== End of " ++ h ++ " ====\n"
        else content
      | none => content

/-- A registered type guard: `(obj: any) => obj is T`. -/
abbrev TypeGuard : Type := JSVal → Bool

/-- A registered formatter: `(val: T) => string`. -/
abbrev Formatter : Type := JSVal → String

/-- An array formatting strategy: `(items, itemFormatter) => string`. -/
abbrev ArrayFormatter : Type := List JSVal → (JSVal → String) → String

/-- An object fallback strategy: `(obj) => string`. -/
abbrev ObjectFormatter : Type := JSVal → String

/-- A registry entry: the `[typeGuard, formatter]` tuple of `makePrompt`. -/
abbrev FormatterEntry : Type := TypeGuard × Formatter

/-- Default array formatter of `makePrompt`:
`(items, itemFormatter) => items.map(itemFormatter).join('\n\n')`. -/
def defaultArrayFormatter : ArrayFormatter :=
  fun items itemFormatter => String.intercalate "\n\n" (items.map itemFormatter)

/-- Default object formatter of `makePrompt`:
`typeof obj.toString === 'function' ? obj.toString() : String(obj)`.  Every
modeled object carries its `toString` rendering, which is also what `String`
returns on it, so both branches collapse to `jsToString`. -/
def defaultObjectFormatter : ObjectFormatter := fun v => jsToString v

/-- JavaScript test `v && typeof v === 'object'`: true exactly for arrays and
(non-null) objects among the modeled values. -/
def isObjLike : JSVal → Bool
  | .arr _ => true
  | .obj _ => true
  | _ => false

/-- Per-element formatting inside the mixed-array branch of `makePrompt`: first
matching registered formatter, else the object formatter for object-typed
elements, else `String(item)`. -/
def formatItem (fs : List FormatterEntry) (objf : ObjectFormatter)
    (item : JSVal) : String :=
  match fs.find? (fun e => e.1 item) with
  | some e => e.2 item
  | none => if isObjLike item then objf item else jsToString item

/-- The per-value transformation of `makePrompt` (src/makePrompt.ts lines
61-109): first matching registered formatter wins; otherwise arrays are
aggregated (empty → `""`, first guard matching every element → the array
formatter with that guard's formatter, else per-element formatting joined by
the array formatter with the identity item formatter); otherwise the object
fallback for object values; otherwise `String(v)`. -/
def transformValue (fs : List FormatterEntry) (af : ArrayFormatter)
    (objf : ObjectFormatter) (v : JSVal) : String :=
  match fs.find? (fun e => e.1 v) with
  | some e => e.2 v
  | none =>
    match v with
    | .arr items =>
      if items.isEmpty then ""
      else
        match fs.find? (fun e => items.all e.1) with
        | some e => af items e.2
        | none =>
          af ((items.map (formatItem fs objf)).map JSVal.str)
            (fun item => jsToString item)
    | _ => if isObjLike v then objf v else jsToString v

/-- The composed renderer produced by `makePrompt(formatters, options)`: it
transforms every interpolated value and then calls the base `prompt` built from
the same header and condition. -/
def makePromptRender (fs : List FormatterEntry) (af : ArrayFormatter)
    (objf : ObjectFormatter) (header : Option String) (condition : Bool)
    (strings : List String) (values : List JSVal) : String :=
  prompt header condition strings
    ((values.map (transformValue fs af objf)).map JSVal.str)

/-- A formatter that may throw, modeled in the exception monad. -/
abbrev FormatterE : Type := JSVal → Except String String

/-- Registry entry with a possibly-throwing formatter. -/
abbrev FormatterEntryE : Type := TypeGuard × FormatterE

/-- Possibly-throwing array formatting strategy. -/
abbrev ArrayFormatterE : Type := List JSVal → FormatterE → Except String String

/-- Default array formatter lifted to the exception monad. -/
def defaultArrayFormatterE : ArrayFormatterE := fun items itemFormatter => do
  let ss ← items.mapM itemFormatter
  pure (String.intercalate "\n\n" ss)

/-- Default object formatter lifted to the exception monad. -/
def defaultObjectFormatterE : FormatterE := fun v => pure (jsToString v)

/-- `formatItem` with possibly-throwing formatters; a thrown exception
propagates. -/
def formatItemE (fs : List FormatterEntryE) (objf : FormatterE)
    (item : JSVal) : Except String String :=
  match fs.find? (fun e => e.1 item) with
  | some e => e.2 item
  | none => if isObjLike item then objf item else pure (jsToString item)

/-- `transformValue` with possibly-throwing formatters; element order follows
the source's `map` calls, and the first exception aborts the transformation. -/
def transformValueE (fs : List FormatterEntryE) (af : ArrayFormatterE)
    (objf : FormatterE) (v : JSVal) : Except String String :=
  match fs.find? (fun e => e.1 v) with
  | some e => e.2 v
  | none =>
    match v with
    | .arr items =>
      if items.isEmpty then pure ""
      else
        match fs.find? (fun e => items.all e.1) with
        | some e => af items e.2
        | none => do
          let fi ← items.mapM (formatItemE fs objf)
          af (fi.map JSVal.str) (fun item => pure (jsToString item))
    | _ => if isObjLike v then objf v else pure (jsToString v)

/-- The composed renderer with possibly-throwing formatters.  As in the source,
`values.map(...)` runs (and may throw) before the base renderer consults the
condition flag. -/
def makePromptRenderE (fs : List FormatterEntryE) (af : ArrayFormatterE)
    (objf : FormatterE) (header : Option String) (condition : Bool)
    (strings : List String) (values : List JSVal) : Except String String := do
  let ts ← values.mapM (transformValueE fs af objf)
  pure (prompt header condition strings (ts.map JSVal.str))

/-! ### Whitespace-invariant infrastructure for idempotence of the cleanup -/

/-- Invariant established by blank-line collapsing: after any `'\n'`, the
following maximal whitespace run holds at most one more newline. -/
def fewNlB : List Char → Bool
  | [] => true
  | c :: rest =>
    (if c = '\n' then decide (countNl (rest.takeWhile isWS) ≤ 1) else true)
      && fewNlB rest

lemma fewNlB_cons {c : Char} {m : List Char} :
    fewNlB (c :: m) = true ↔
      ((c = '\n' → countNl (m.takeWhile isWS) ≤ 1) ∧ fewNlB m = true) := by
  by_cases hc : c = '\n' <;> simp [fewNlB, hc]

lemma countNl_append (a b : List Char) :
    countNl (a ++ b) = countNl a + countNl b := by
  simp [countNl, List.countP_append]

lemma countNl_cons (c : Char) (l : List Char) :
    countNl (c :: l) = (if c = '\n' then 1 else 0) + countNl l := by
  by_cases hc : c = '\n' <;> simp [countNl, List.countP_cons, hc] <;> omega

lemma countNl_eq_zero {l : List Char} :
    countNl l = 0 ↔ ∀ c ∈ l, ¬ (c = '\n') := by
  simp [countNl, List.countP_eq_zero]

lemma cBL_nil : collapseBlankLines [] = [] := by
  rw [collapseBlankLines]

lemma cBL_cons_pos {c : Char} {rest : List Char}
    (h1 : c = '\n') (h2 : 2 ≤ countNl (rest.takeWhile isWS)) :
    collapseBlankLines (c :: rest)
      = '\n' :: '\n' ::
          collapseBlankLines (afterLastNl (rest.takeWhile isWS) ++ rest.dropWhile isWS) := by
  rw [collapseBlankLines]
  simp [h1, h2]

lemma cBL_cons_neg {c : Char} {rest : List Char}
    (h : ¬(c = '\n' ∧ 2 ≤ countNl (rest.takeWhile isWS))) :
    collapseBlankLines (c :: rest) = c :: collapseBlankLines rest := by
  rw [collapseBlankLines]
  simp only [dif_neg h]

/-- Blank-line collapsing does nothing on a string satisfying the newline
invariant. -/
lemma cBL_eq_self {l : List Char} (h : fewNlB l = true) :
    collapseBlankLines l = l := by
  induction l using collapseBlankLines.induct with
  | case1 => exact cBL_nil
  | case2 c rest hc ih =>
    exfalso
    have := (fewNlB_cons.mp h).1 hc.1
    omega
  | case3 c rest hc ih =>
    rw [cBL_cons_neg hc, ih (fewNlB_cons.mp h).2]

lemma afterLastNl_not_nl {l : List Char} : ∀ c ∈ afterLastNl l, ¬ (c = '\n') := by
  intro c hc
  unfold afterLastNl at hc
  rw [List.mem_reverse] at hc
  have := List.mem_takeWhile_imp hc
  simpa using this

lemma afterLastNl_decomp (l : List Char) :
    ∃ a, a ++ afterLastNl l = l := by
  refine ⟨(l.reverse.dropWhile (fun c => ¬ (c = '\n'))).reverse, ?_⟩
  unfold afterLastNl
  rw [← List.reverse_append, List.takeWhile_append_dropWhile, List.reverse_reverse]

lemma takeWhile_append_all {p : Char → Bool} {a : List Char} (x : List Char)
    (h : ∀ c ∈ a, p c = true) :
    (a ++ x).takeWhile p = a ++ x.takeWhile p := by
  induction a with
  | nil => simp
  | cons c r ih =>
    have hc : p c = true := h c (by simp)
    simp only [List.cons_append, List.takeWhile_cons, hc, if_true]
    rw [ih (fun d hd => h d (by simp [hd]))]

lemma countNl_takeWhile_le_append (p : Char → Bool) (m b : List Char) :
    countNl (m.takeWhile p) ≤ countNl ((m ++ b).takeWhile p) := by
  induction m with
  | nil => simp [countNl]
  | cons c r ih =>
    by_cases hc : p c
    · simp only [List.takeWhile_cons, hc, if_true, List.cons_append]
      rw [countNl_cons, countNl_cons]
      omega
    · simp [List.takeWhile_cons, hc]

lemma fewNlB_append_right {a m : List Char} (h : fewNlB (a ++ m) = true) :
    fewNlB m = true := by
  induction a with
  | nil => simpa using h
  | cons c r ih => exact ih (fewNlB_cons.mp h).2

lemma fewNlB_append_left {m b : List Char} (h : fewNlB (m ++ b) = true) :
    fewNlB m = true := by
  induction m with
  | nil => simp [fewNlB]
  | cons c r ih =>
    rw [List.cons_append] at h
    rw [fewNlB_cons]
    have hh := fewNlB_cons.mp h
    refine ⟨fun hc => ?_, ih hh.2⟩
    have := hh.1 hc
    have hle := countNl_takeWhile_le_append isWS r b
    omega

lemma fewNlB_middle {a m b : List Char} (h : fewNlB (a ++ m ++ b) = true) :
    fewNlB m = true :=
  fewNlB_append_left (fewNlB_append_right (a := a) (by simpa [List.append_assoc] using h))

lemma trimWS_decomp (l : List Char) :
    ∃ a b, l = a ++ trimWS l ++ b := by
  refine ⟨l.takeWhile isWS, ((l.dropWhile isWS).reverse.takeWhile isWS).reverse, ?_⟩
  have hdrop : l.dropWhile isWS
      = trimWS l ++ ((l.dropWhile isWS).reverse.takeWhile isWS).reverse := by
    unfold trimWS
    conv_lhs => rw [← List.reverse_reverse (l.dropWhile isWS),
      ← List.takeWhile_append_dropWhile (p := isWS) (l := (l.dropWhile isWS).reverse)]
    rw [List.reverse_append]
  rw [List.append_assoc, ← hdrop, List.takeWhile_append_dropWhile]

lemma fewNlB_trimWS {l : List Char} (h : fewNlB l = true) :
    fewNlB (trimWS l) = true := by
  obtain ⟨a, b, hl⟩ := trimWS_decomp l
  rw [hl] at h
  exact fewNlB_middle h

lemma takeWhile_dropWhile_self (p : Char → Bool) (l : List Char) :
    ((l.dropWhile p).takeWhile p) = [] := by
  induction l with
  | nil => simp
  | cons c r ih =>
    by_cases hc : p c
    · simpa [List.dropWhile_cons, hc] using ih
    · simp [List.dropWhile_cons, hc, List.takeWhile_cons]

lemma countNl_takeWhile_cBL_zero {l : List Char}
    (h : countNl (l.takeWhile isWS) = 0) :
    countNl ((collapseBlankLines l).takeWhile isWS) = 0 := by
  induction l using collapseBlankLines.induct with
  | case1 => simpa [cBL_nil] using h
  | case2 c rest hc ih =>
    exfalso
    rw [hc.1] at h
    rw [List.takeWhile_cons] at h
    simp only [show isWS '\n' = true from by decide, if_true] at h
    rw [countNl_cons] at h
    simp at h
  | case3 c rest hc ih =>
    rw [cBL_cons_neg hc]
    by_cases hws : isWS c
    · have hcnl : ¬ (c = '\n') := by
        intro hnl
        rw [List.takeWhile_cons] at h
        simp only [hws, if_true] at h
        rw [countNl_cons, hnl] at h
        simp at h
      rw [List.takeWhile_cons] at h ⊢
      simp only [hws, if_true] at h ⊢
      rw [countNl_cons] at h ⊢
      simp only [hcnl, if_false] at h ⊢
      have := ih (by omega)
      omega
    · simp [List.takeWhile_cons, hws, countNl]

lemma countNl_takeWhile_cBL_le {l : List Char}
    (h : countNl (l.takeWhile isWS) ≤ 1) :
    countNl ((collapseBlankLines l).takeWhile isWS) ≤ 1 := by
  induction l using collapseBlankLines.induct with
  | case1 => simpa [cBL_nil] using h
  | case2 c rest hc ih =>
    exfalso
    rw [hc.1, List.takeWhile_cons] at h
    simp only [show isWS '\n' = true from by decide, if_true] at h
    rw [countNl_cons] at h
    have := hc.2
    have hmono := countNl_takeWhile_le_append isWS rest []
    simp at h
    omega
  | case3 c rest hc ih =>
    rw [cBL_cons_neg hc]
    by_cases hws : isWS c
    · rw [List.takeWhile_cons] at h ⊢
      simp only [hws, if_true] at h ⊢
      rw [countNl_cons] at h ⊢
      by_cases hnl : c = '\n'
      · simp only [hnl, if_true] at h ⊢
        have hz : countNl (rest.takeWhile isWS) = 0 := by omega
        have := countNl_takeWhile_cBL_zero hz
        omega
      · simp only [hnl, if_false] at h ⊢
        have := ih (by omega)
        omega
    · simp [List.takeWhile_cons, hws, countNl]

/-- Blank-line collapsing establishes the newline invariant. -/
lemma fewNlB_cBL (l : List Char) : fewNlB (collapseBlankLines l) = true := by
  induction l using collapseBlankLines.induct with
  | case1 => simp [cBL_nil, fewNlB]
  | case2 c rest hc ih =>
    rw [cBL_cons_pos hc.1 hc.2]
    have hafter_ws : ∀ d ∈ afterLastNl (rest.takeWhile isWS), isWS d = true := by
      intro d hd
      obtain ⟨a, ha⟩ := afterLastNl_decomp (rest.takeWhile isWS)
      have : d ∈ rest.takeWhile isWS := by
        rw [← ha]
        simp [hd]
      exact List.mem_takeWhile_imp this
    have hafter_nonl := afterLastNl_not_nl (l := rest.takeWhile isWS)
    have htail : countNl ((afterLastNl (rest.takeWhile isWS)
        ++ rest.dropWhile isWS).takeWhile isWS) = 0 := by
      rw [takeWhile_append_all _ hafter_ws, takeWhile_dropWhile_self]
      rw [List.append_nil]
      exact countNl_eq_zero.mpr hafter_nonl
    have hzero := countNl_takeWhile_cBL_zero htail
    rw [fewNlB_cons]
    constructor
    · intro _
      rw [List.takeWhile_cons]
      simp only [show isWS '\n' = true from by decide, if_true]
      rw [countNl_cons]
      simp [hzero]
    · rw [fewNlB_cons]
      exact ⟨fun _ => by omega, ih⟩
  | case3 c rest hc ih =>
    rw [cBL_cons_neg hc]
    rw [fewNlB_cons]
    refine ⟨fun hnl => ?_, ih⟩
    have hle : countNl (rest.takeWhile isWS) ≤ 1 := by
      by_contra hgt
      exact hc ⟨hnl, by omega⟩
    exact countNl_takeWhile_cBL_le hle

/-! ### Space/tab collapsing: invariants it needs and establishes -/

/-- No tab character occurs. -/
def noTabs (l : List Char) : Prop := ∀ c ∈ l, c ≠ '\t'

/-- No two adjacent spaces occur. -/
def noDoubleSpace (l : List Char) : Prop :=
  l.Chain' (fun a b => ¬ (a = ' ' ∧ b = ' '))

/-- No space directly follows a newline. -/
def noNlSpace (l : List Char) : Prop :=
  l.Chain' (fun a b => ¬ (a = '\n' ∧ b = ' '))

lemma cst_nil : collapseSpaceTab [] = [] := rfl

lemma cst_single_st {c : Char} (h : c = ' ' ∨ c = '\t') :
    collapseSpaceTab [c] = [' '] := by
  simp [collapseSpaceTab, h]

lemma cst_cons2_st {c d : Char} {rest : List Char}
    (hc : c = ' ' ∨ c = '\t') (hd : d = ' ' ∨ d = '\t') :
    collapseSpaceTab (c :: d :: rest) = collapseSpaceTab (d :: rest) := by
  simp [collapseSpaceTab, hc, hd]

lemma cst_cons2_end {c d : Char} {rest : List Char}
    (hc : c = ' ' ∨ c = '\t') (hd : ¬ (d = ' ' ∨ d = '\t')) :
    collapseSpaceTab (c :: d :: rest) = ' ' :: collapseSpaceTab (d :: rest) := by
  rw [collapseSpaceTab.eq_def]
  simp [hc, hd]

lemma cst_cons_nonst {c : Char} {rest : List Char} (hc : ¬ (c = ' ' ∨ c = '\t')) :
    collapseSpaceTab (c :: rest) = c :: collapseSpaceTab rest := by
  rw [collapseSpaceTab.eq_def]
  simp only [hc, if_false]

lemma st_isWS {c : Char} (h : c = ' ' ∨ c = '\t') : isWS c = true := by
  rcases h with h | h <;> subst h <;> decide

lemma st_ne_nl {c : Char} (h : c = ' ' ∨ c = '\t') : ¬ (c = '\n') := by
  rcases h with h | h <;> subst h <;> decide

lemma countNl_takeWhile_cst (l : List Char) :
    countNl ((collapseSpaceTab l).takeWhile isWS)
      = countNl (l.takeWhile isWS) := by
  induction l using collapseSpaceTab.induct with
  | case1 => simp [cst_nil]
  | case2 c hc =>
    rw [cst_single_st hc]
    rw [List.takeWhile_cons, List.takeWhile_cons]
    simp only [st_isWS hc, st_isWS (Or.inl rfl), if_true]
    rw [countNl_cons, countNl_cons]
    simp [st_ne_nl hc, st_ne_nl (Or.inl (show (' ' : Char) = ' ' from rfl))]
  | case3 c hc d rest hd ih =>
    rw [cst_cons2_st hc hd, ih, List.takeWhile_cons (l := d :: rest)]
    simp only [st_isWS hc, if_true]
    rw [countNl_cons]
    simp [st_ne_nl hc]
  | case4 c hc d rest hd ih =>
    rw [cst_cons2_end hc hd]
    rw [List.takeWhile_cons, List.takeWhile_cons (l := d :: rest)]
    simp only [st_isWS hc, st_isWS (Or.inl rfl), if_true]
    rw [countNl_cons, countNl_cons, ih]
    simp [st_ne_nl hc, st_ne_nl (Or.inl (show (' ' : Char) = ' ' from rfl))]
  | case5 c rest hc ih =>
    rw [cst_cons_nonst hc]
    by_cases hws : isWS c
    · rw [List.takeWhile_cons, List.takeWhile_cons]
      simp only [hws, if_true]
      rw [countNl_cons, countNl_cons, ih]
    · simp [List.takeWhile_cons, hws, countNl]

lemma fewNlB_cst {l : List Char} (h : fewNlB l = true) :
    fewNlB (collapseSpaceTab l) = true := by
  induction l using collapseSpaceTab.induct with
  | case1 => simpa [cst_nil] using h
  | case2 c hc =>
    rw [cst_single_st hc]
    simp [fewNlB]
  | case3 c hc d rest hd ih =>
    rw [cst_cons2_st hc hd]
    exact ih (fewNlB_cons.mp h).2
  | case4 c hc d rest hd ih =>
    rw [cst_cons2_end hc hd, fewNlB_cons]
    exact ⟨fun hspace => by simp at hspace, ih (fewNlB_cons.mp h).2⟩
  | case5 c rest hc ih =>
    rw [cst_cons_nonst hc, fewNlB_cons]
    refine ⟨fun hnl => ?_, ih (fewNlB_cons.mp h).2⟩
    rw [countNl_takeWhile_cst]
    exact (fewNlB_cons.mp h).1 hnl

lemma noTabs_cst (l : List Char) : noTabs (collapseSpaceTab l) := by
  induction l using collapseSpaceTab.induct with
  | case1 => intro c hc; simp [cst_nil] at hc
  | case2 c hc =>
    rw [cst_single_st hc]
    intro d hd
    simp at hd
    simp [hd]
  | case3 c hc d rest hd ih =>
    rw [cst_cons2_st hc hd]; exact ih
  | case4 c hc d rest hd ih =>
    rw [cst_cons2_end hc hd]
    intro e he
    rcases List.mem_cons.mp he with he | he
    · simp [he]
    · exact ih e he
  | case5 c rest hc ih =>
    rw [cst_cons_nonst hc]
    intro e he
    rcases List.mem_cons.mp he with he | he
    · subst he
      intro habs
      exact hc (Or.inr habs)
    · exact ih e he

lemma noDoubleSpace_cst (l : List Char) : noDoubleSpace (collapseSpaceTab l) := by
  induction l using collapseSpaceTab.induct with
  | case1 => simp [cst_nil, noDoubleSpace]
  | case2 c hc =>
    rw [cst_single_st hc]
    simp [noDoubleSpace]
  | case3 c hc d rest hd ih =>
    rw [cst_cons2_st hc hd]; exact ih
  | case4 c hc d rest hd ih =>
    rw [cst_cons2_end hc hd]
    rw [noDoubleSpace, List.chain'_cons']
    refine ⟨?_, ih⟩
    intro y hy
    rw [cst_cons_nonst hd] at hy
    simp only [List.head?_cons, Option.mem_def, Option.some.injEq] at hy
    subst hy
    intro habs
    exact hd (Or.inl habs.2)
  | case5 c rest hc ih =>
    rw [cst_cons_nonst hc]
    rw [noDoubleSpace, List.chain'_cons']
    refine ⟨?_, ih⟩
    intro y _ habs
    exact hc (Or.inl habs.1)

/-- Space/tab collapsing does nothing when there is no tab and no double
space. -/
lemma cst_eq_self {l : List Char} (h1 : noTabs l) (h2 : noDoubleSpace l) :
    collapseSpaceTab l = l := by
  induction l using collapseSpaceTab.induct with
  | case1 => exact cst_nil
  | case2 c hc =>
    have : c = ' ' := by
      rcases hc with hc | hc
      · exact hc
      · exact absurd hc (h1 c (by simp))
    rw [cst_single_st hc, this]
  | case3 c hc d rest hd ih =>
    exfalso
    have hc' : c = ' ' := by
      rcases hc with hc | hc
      · exact hc
      · exact absurd hc (h1 c (by simp))
    have hd' : d = ' ' := by
      rcases hd with hd | hd
      · exact hd
      · exact absurd hd (h1 d (by simp))
    have := (List.chain'_cons'.mp h2).1
    exact this d (by simp) ⟨hc', hd'⟩
  | case4 c hc d rest hd ih =>
    have hc' : c = ' ' := by
      rcases hc with hc | hc
      · exact hc
      · exact absurd hc (h1 c (by simp))
    rw [cst_cons2_end hc hd, hc']
    have h1' : noTabs (d :: rest) := fun e he => h1 e (by simp [he])
    have h2' : noDoubleSpace (d :: rest) := (List.chain'_cons'.mp h2).2
    rw [ih h1' h2']
  | case5 c rest hc ih =>
    rw [cst_cons_nonst hc]
    have h1' : noTabs rest := fun e he => h1 e (by simp [he])
    have h2' : noDoubleSpace rest := (List.chain'_cons'.mp h2).2
    rw [ih h1' h2']

/-! ### Newline-space dropping: invariants it needs and establishes -/

lemma dsn_nil : dropSpaceAfterNl [] = [] := rfl

lemma dsn_single (c : Char) : dropSpaceAfterNl [c] = [c] := rfl

lemma dsn_cons2_pos {a b : Char} {rest : List Char} (h : a = '\n' ∧ b = ' ') :
    dropSpaceAfterNl (a :: b :: rest) = '\n' :: dropSpaceAfterNl rest := by
  rw [dropSpaceAfterNl]
  simp [h]

lemma dsn_cons2_neg {a b : Char} {rest : List Char} (h : ¬ (a = '\n' ∧ b = ' ')) :
    dropSpaceAfterNl (a :: b :: rest) = a :: dropSpaceAfterNl (b :: rest) := by
  rw [dropSpaceAfterNl]
  simp only [h, if_false]

lemma dsn_head? (l : List Char) : (dropSpaceAfterNl l).head? = l.head? := by
  induction l using dropSpaceAfterNl.induct with
  | case1 => rfl
  | case2 c => rfl
  | case3 a b rest h ih =>
    rw [dsn_cons2_pos h]
    simp [h.1]
  | case4 a b rest h ih =>
    rw [dsn_cons2_neg h]
    simp

lemma mem_dsn {l : List Char} {c : Char} (h : c ∈ dropSpaceAfterNl l) : c ∈ l := by
  induction l using dropSpaceAfterNl.induct with
  | case1 => simpa [dsn_nil] using h
  | case2 d => simpa [dsn_single] using h
  | case3 a b rest hab ih =>
    rw [dsn_cons2_pos hab] at h
    rcases List.mem_cons.mp h with h | h
    · simp [h, hab.1]
    · have := ih h
      simp [this]
  | case4 a b rest hab ih =>
    rw [dsn_cons2_neg hab] at h
    rcases List.mem_cons.mp h with h | h
    · simp [h]
    · have := ih h
      rcases List.mem_cons.mp this with h' | h' <;> simp [h']

lemma countNl_takeWhile_dsn (l : List Char) :
    countNl ((dropSpaceAfterNl l).takeWhile isWS) = countNl (l.takeWhile isWS) := by
  induction l using dropSpaceAfterNl.induct with
  | case1 => rfl
  | case2 c => rfl
  | case3 a b rest hab ih =>
    rw [dsn_cons2_pos hab, hab.1, hab.2]
    rw [List.takeWhile_cons, List.takeWhile_cons, List.takeWhile_cons]
    simp only [show isWS '\n' = true from by decide,
      show isWS ' ' = true from by decide, if_true]
    rw [countNl_cons, countNl_cons, countNl_cons, ih]
    have e1 : (if ('\n' : Char) = '\n' then 1 else 0) = 1 := by simp
    have e2 : (if (' ' : Char) = '\n' then 1 else 0) = 0 := by simp
    omega
  | case4 a b rest hab ih =>
    rw [dsn_cons2_neg hab]
    by_cases hws : isWS a
    · rw [List.takeWhile_cons, List.takeWhile_cons (l := b :: rest)]
      simp only [hws, if_true]
      rw [countNl_cons, countNl_cons, ih]
    · simp [List.takeWhile_cons, hws, countNl]

lemma fewNlB_dsn {l : List Char} (h : fewNlB l = true) :
    fewNlB (dropSpaceAfterNl l) = true := by
  induction l using dropSpaceAfterNl.induct with
  | case1 => exact h
  | case2 c => exact h
  | case3 a b rest hab ih =>
    rw [dsn_cons2_pos hab]
    have h1 := fewNlB_cons.mp h
    have h2 := fewNlB_cons.mp h1.2
    rw [fewNlB_cons]
    refine ⟨fun _ => ?_, ih h2.2⟩
    rw [countNl_takeWhile_dsn]
    have := h1.1 hab.1
    rw [hab.2] at this
    rw [List.takeWhile_cons] at this
    simp only [show isWS ' ' = true from by decide, if_true] at this
    rw [countNl_cons] at this
    have e2 : (if (' ' : Char) = '\n' then 1 else 0) = 0 := by simp
    omega
  | case4 a b rest hab ih =>
    rw [dsn_cons2_neg hab]
    have h1 := fewNlB_cons.mp h
    rw [fewNlB_cons]
    refine ⟨fun hnl => ?_, ih h1.2⟩
    rw [countNl_takeWhile_dsn]
    exact h1.1 hnl

lemma noDoubleSpace_dsn {l : List Char} (h : noDoubleSpace l) :
    noDoubleSpace (dropSpaceAfterNl l) := by
  induction l using dropSpaceAfterNl.induct with
  | case1 => exact h
  | case2 c => exact h
  | case3 a b rest hab ih =>
    rw [dsn_cons2_pos hab]
    have h1 := List.chain'_cons'.mp h
    have h2 := List.chain'_cons'.mp h1.2
    rw [noDoubleSpace, List.chain'_cons']
    exact ⟨fun y _ habs => by simp at habs, ih h2.2⟩
  | case4 a b rest hab ih =>
    rw [dsn_cons2_neg hab]
    have h1 := List.chain'_cons'.mp h
    rw [noDoubleSpace, List.chain'_cons']
    refine ⟨fun y hy => ?_, ih h1.2⟩
    rw [dsn_head?] at hy
    simp only [List.head?_cons, Option.mem_def, Option.some.injEq] at hy
    subst hy
    exact h1.1 b (by simp)

lemma noNlSpace_dsn {l : List Char} (h : noDoubleSpace l) :
    noNlSpace (dropSpaceAfterNl l) := by
  induction l using dropSpaceAfterNl.induct with
  | case1 => simp [dsn_nil, noNlSpace]
  | case2 c => simp [dsn_single, noNlSpace]
  | case3 a b rest hab ih =>
    rw [dsn_cons2_pos hab]
    have h1 := List.chain'_cons'.mp h
    have h2 := List.chain'_cons'.mp h1.2
    rw [noNlSpace, List.chain'_cons']
    refine ⟨fun y hy habs => ?_, ih h2.2⟩
    rw [dsn_head?] at hy
    exact h2.1 y hy ⟨hab.2, habs.2⟩
  | case4 a b rest hab ih =>
    rw [dsn_cons2_neg hab]
    have h1 := List.chain'_cons'.mp h
    rw [noNlSpace, List.chain'_cons']
    refine ⟨fun y hy habs => ?_, ih h1.2⟩
    rw [dsn_head?] at hy
    simp only [List.head?_cons, Option.mem_def, Option.some.injEq] at hy
    subst hy
    exact hab ⟨habs.1, habs.2⟩

/-- Newline-space dropping does nothing when no space follows a newline. -/
lemma dsn_eq_self {l : List Char} (h : noNlSpace l) : dropSpaceAfterNl l = l := by
  induction l using dropSpaceAfterNl.induct with
  | case1 => rfl
  | case2 c => rfl
  | case3 a b rest hab ih =>
    exfalso
    exact (List.chain'_cons'.mp h).1 b (by simp) hab
  | case4 a b rest hab ih =>
    rw [dsn_cons2_neg hab, ih (List.chain'_cons'.mp h).2]

/-! ### Trimming: idempotence and invariant transport -/

lemma dropWhile_head_not {p : Char → Bool} {l : List Char} {c : Char}
    (h : (l.dropWhile p).head? = some c) : p c = false := by
  induction l with
  | nil => simp at h
  | cons d r ih =>
    by_cases hd : p d
    · rw [List.dropWhile_cons, if_pos hd] at h
      exact ih h
    · rw [List.dropWhile_cons, if_neg hd] at h
      simp only [List.head?_cons, Option.some.injEq] at h
      subst h
      simpa using hd

lemma trimWS_head {l : List Char} {c : Char}
    (h : (trimWS l).head? = some c) : isWS c = false := by
  unfold trimWS at h
  rw [List.head?_reverse] at h
  have hne : (l.dropWhile isWS).reverse.dropWhile isWS ≠ [] := by
    intro habs
    rw [habs] at h
    simp at h
  have hdec := List.takeWhile_append_dropWhile (p := isWS)
    (l := (l.dropWhile isWS).reverse)
  have hlast : ((l.dropWhile isWS).reverse.dropWhile isWS).getLast?
      = (l.dropWhile isWS).reverse.getLast? := by
    conv_rhs => rw [← hdec]
    rw [List.getLast?_append_of_ne_nil _ hne]
  rw [hlast, List.getLast?_reverse] at h
  exact dropWhile_head_not h

lemma trimWS_last {l : List Char} {c : Char}
    (h : (trimWS l).getLast? = some c) : isWS c = false := by
  unfold trimWS at h
  rw [List.getLast?_reverse] at h
  exact dropWhile_head_not h

lemma trimWS_eq_self {l : List Char}
    (h1 : ∀ c, l.head? = some c → isWS c = false)
    (h2 : ∀ c, l.getLast? = some c → isWS c = false) :
    trimWS l = l := by
  have hfront : l.dropWhile isWS = l := by
    cases l with
    | nil => rfl
    | cons c r =>
      rw [List.dropWhile_cons, if_neg]
      rw [Bool.not_eq_true]
      exact h1 c rfl
  unfold trimWS
  rw [hfront]
  have hback : l.reverse.dropWhile isWS = l.reverse := by
    cases hrev : l.reverse with
    | nil => simp
    | cons c r =>
      rw [List.dropWhile_cons, if_neg, ← hrev]
      rw [Bool.not_eq_true]
      apply h2
      rw [← List.head?_reverse, hrev]
      rfl
  rw [hback, List.reverse_reverse]

lemma trimWS_idem (l : List Char) : trimWS (trimWS l) = trimWS l :=
  trimWS_eq_self (fun _ h => trimWS_head h) (fun _ h => trimWS_last h)

lemma chain'_middle {R : Char → Char → Prop} {a m b : List Char}
    (h : List.Chain' R (a ++ m ++ b)) : List.Chain' R m := by
  rw [List.append_assoc] at h
  exact (List.chain'_append.mp (List.chain'_append.mp h).2.1).1

lemma noDoubleSpace_trimWS {l : List Char} (h : noDoubleSpace l) :
    noDoubleSpace (trimWS l) := by
  obtain ⟨a, b, hl⟩ := trimWS_decomp l
  rw [hl] at h
  exact chain'_middle h

lemma noNlSpace_trimWS {l : List Char} (h : noNlSpace l) :
    noNlSpace (trimWS l) := by
  obtain ⟨a, b, hl⟩ := trimWS_decomp l
  rw [hl] at h
  exact chain'_middle h

lemma noTabs_trimWS {l : List Char} (h : noTabs l) : noTabs (trimWS l) := by
  obtain ⟨a, b, hl⟩ := trimWS_decomp l
  intro c hc
  exact h c (by rw [hl]; simp [hc])

lemma noTabs_dsn {l : List Char} (h : noTabs l) : noTabs (dropSpaceAfterNl l) :=
  fun c hc => h c (mem_dsn hc)

/-- Idempotence of the whole normalization pipeline, at the character level. -/
theorem normalizeChars_idem (l : List Char) :
    normalizeChars (normalizeChars l) = normalizeChars l := by
  have hfew : fewNlB (normalizeChars l) = true :=
    fewNlB_trimWS (fewNlB_dsn (fewNlB_cst (fewNlB_trimWS (fewNlB_cBL l))))
  have hnt : noTabs (normalizeChars l) :=
    noTabs_trimWS (noTabs_dsn (noTabs_cst _))
  have hnds : noDoubleSpace (normalizeChars l) :=
    noDoubleSpace_trimWS (noDoubleSpace_dsn (noDoubleSpace_cst _))
  have hnns : noNlSpace (normalizeChars l) :=
    noNlSpace_trimWS (noNlSpace_dsn (noDoubleSpace_cst _))
  have htrim : trimWS (normalizeChars l) = normalizeChars l := by
    unfold normalizeChars
    exact trimWS_idem _
  show trimWS (dropSpaceAfterNl (collapseSpaceTab (trimWS
      (collapseBlankLines (normalizeChars l))))) = normalizeChars l
  rw [cBL_eq_self hfew, htrim, cst_eq_self hnt hnds, dsn_eq_self hnns, htrim]

/-! ### Helpers for the claim theorems -/

lemma find?_first {α : Type} (p : α → Bool) (fs1 fs2 : List α) (x : α)
    (h1 : ∀ e ∈ fs1, p e = false) (hx : p x = true) :
    (fs1 ++ x :: fs2).find? p = some x := by
  induction fs1 with
  | nil => simp [List.find?_cons, hx]
  | cons a r ih =>
    have ha : p a = false := h1 a (by simp)
    rw [List.cons_append, List.find?_cons, ha]
    exact ih (fun e he => h1 e (by simp [he]))

/-- A renderer call whose concatenated content normalizes to the empty string
returns the empty string, whatever the header and condition. -/
lemma prompt_empty_content {header : Option String} {condition : Bool}
    {strings : List String} {values : List JSVal}
    (hn : normalizeWS (promptConcat strings values) = "") :
    prompt header condition strings values = "" := by
  cases condition with
  | false => simp [prompt]
  | true => simp [prompt, hn]

lemma normalizeWS_eval {s : String} (h : fewNlB s.data = true) :
    normalizeWS s
      = ⟨trimWS (dropSpaceAfterNl (collapseSpaceTab (trimWS s.data)))⟩ := by
  unfold normalizeWS normalizeChars
  rw [cBL_eq_self h]

/-! ### The claims -/

/-- C1: the composed formatting renderer tries registered
`(predicate, formatter)` entries in registration order; the first entry whose
predicate holds determines the result as `formatter(value)`, even when the
value is an array (before any array aggregation), deterministically. -/
theorem claim1_first_matching_predicate_wins
    (fs1 fs2 : List FormatterEntry) (g : TypeGuard) (f : Formatter)
    (af : ArrayFormatter) (objf : ObjectFormatter) (v : JSVal)
    (hbefore : ∀ e ∈ fs1, e.1 v = false) (hg : g v = true) :
    transformValue (fs1 ++ (g, f) :: fs2) af objf v = f v := by
  have hd : (fs1 ++ (g, f) :: fs2).find? (fun e => e.1 v) = some (g, f) :=
    find?_first _ fs1 fs2 (g, f) hbefore hg
  simp only [transformValue, hd]

/-- Witness for C1: an array-matching predicate registered second fires on an
array value ahead of the array-aggregation path. -/
theorem claim1_witness :
    transformValue
      [(fun v => match v with | .num _ => true | _ => false, fun _ => "num"),
       (fun v => match v with | .arr _ => true | _ => false, fun _ => "ARRAY")]
      defaultArrayFormatter defaultObjectFormatter (JSVal.arr [JSVal.str "x"])
      = "ARRAY" :=
  claim1_first_matching_predicate_wins
    [(fun v => match v with | .num _ => true | _ => false, fun _ => "num")] []
    (fun v => match v with | .arr _ => true | _ => false) (fun _ => "ARRAY")
    defaultArrayFormatter defaultObjectFormatter (JSVal.arr [JSVal.str "x"])
    (by intro e he; rw [List.mem_singleton] at he; subst he; rfl) rfl

/-- C2: a non-empty array matched by no predicate directly, all of whose
elements satisfy some registered predicate, is rendered as
`arrayFormatter(elements, f)` for the first-registered such predicate's
formatter `f`; the default array formatter joins the formatted items with
exactly two newlines. -/
theorem claim2_homogeneous_array_aggregation
    (fs1 fs2 : List FormatterEntry) (g : TypeGuard) (f : Formatter)
    (af : ArrayFormatter) (objf : ObjectFormatter) (xs : List JSVal)
    (hne : xs ≠ [])
    (hdirect : ∀ e ∈ fs1 ++ (g, f) :: fs2, e.1 (JSVal.arr xs) = false)
    (hbefore : ∀ e ∈ fs1, xs.all e.1 = false)
    (hall : xs.all g = true) :
    transformValue (fs1 ++ (g, f) :: fs2) af objf (JSVal.arr xs) = af xs f
    ∧ defaultArrayFormatter xs f = String.intercalate "\n\n" (xs.map f) := by
  refine ⟨?_, rfl⟩
  have hd : (fs1 ++ (g, f) :: fs2).find? (fun e => e.1 (JSVal.arr xs)) = none :=
    List.find?_eq_none.mpr (by intro x hx; simp [hdirect x hx])
  have hh : (fs1 ++ (g, f) :: fs2).find? (fun e => xs.all e.1) = some (g, f) :=
    find?_first _ fs1 fs2 (g, f) hbefore hall
  simp only [transformValue, hd, hh]
  rw [if_neg (by simpa using hne)]

/-- Witness for C2: two strings aggregated by the string predicate's formatter
with the default two-newline join. -/
theorem claim2_witness :
    transformValue
      [(fun v => match v with | .str _ => true | _ => false,
        fun v => jsToString v ++ "!")]
      defaultArrayFormatter defaultObjectFormatter
      (JSVal.arr [JSVal.str "a", JSVal.str "b"]) = "a!\n\nb!" := by
  have h := claim2_homogeneous_array_aggregation
    [] []
    (fun v => match v with | .str _ => true | _ => false)
    (fun v => jsToString v ++ "!")
    defaultArrayFormatter defaultObjectFormatter
    [JSVal.str "a", JSVal.str "b"]
    (by simp)
    (by intro e he; rw [List.nil_append, List.mem_singleton] at he; subst he; rfl)
    (by intro e he; simp at he)
    rfl
  rw [List.nil_append] at h
  rw [h.1]
  rfl

/-- C3: a non-empty array matched by no predicate directly, with no single
predicate satisfied by every element, is rendered by formatting each element
individually (first matching predicate, else the object formatter for
object-typed elements, else its plain string form) and combining the resulting
strings with the array formatter under the identity item formatter — never by
one stringification of the whole array. -/
theorem claim3_mixed_array_elementwise
    (fs : List FormatterEntry) (af : ArrayFormatter) (objf : ObjectFormatter)
    (xs : List JSVal)
    (hne : xs ≠ [])
    (hdirect : ∀ e ∈ fs, e.1 (JSVal.arr xs) = false)
    (hnohomo : ∀ e ∈ fs, xs.all e.1 = false) :
    transformValue fs af objf (JSVal.arr xs)
      = af ((xs.map (formatItem fs objf)).map JSVal.str)
          (fun item => jsToString item)
    ∧ ∀ item, formatItem fs objf item
        = match fs.find? (fun e => e.1 item) with
          | some e => e.2 item
          | none => if isObjLike item then objf item else jsToString item := by
  refine ⟨?_, fun item => rfl⟩
  have hd : fs.find? (fun e => e.1 (JSVal.arr xs)) = none :=
    List.find?_eq_none.mpr (by intro x hx; simp [hdirect x hx])
  have hh : fs.find? (fun e => xs.all e.1) = none :=
    List.find?_eq_none.mpr (by intro x hx; simp [hnohomo x hx])
  simp only [transformValue, hd, hh]
  rw [if_neg (by simpa using hne)]

/-- Witness for C3: a two-element mixed array (a matched object and an
unmatched string) formatted element by element and joined by the default array
formatter. -/
theorem claim3_witness :
    transformValue
      [(fun v => match v with | .obj _ => true | _ => false, fun _ => "OBJ")]
      defaultArrayFormatter defaultObjectFormatter
      (JSVal.arr [JSVal.obj "N", JSVal.str "plain"]) = "OBJ\n\nplain" := by
  have h := claim3_mixed_array_elementwise
    [(fun v => match v with | .obj _ => true | _ => false, fun _ => "OBJ")]
    defaultArrayFormatter defaultObjectFormatter
    [JSVal.obj "N", JSVal.str "plain"]
    (by simp)
    (by intro e he; rw [List.mem_singleton] at he; subst he; rfl)
    (by intro e he; rw [List.mem_singleton] at he; subst he; rfl)
  rw [h.1]
  rfl

/-- C4: an empty array matched by no predicate transforms to the empty string;
a renderer call whose content normalizes to the empty string returns exactly
the empty string with no header; in particular a named, condition-true section
whose only content is an empty array returns the empty string. -/
theorem claim4_empty_array_empty_section
    (fs : List FormatterEntry) (af : ArrayFormatter) (objf : ObjectFormatter)
    (h : ∀ e ∈ fs, e.1 (JSVal.arr []) = false) :
    transformValue fs af objf (JSVal.arr []) = ""
    ∧ (∀ (name : String) (strings : List String) (values : List JSVal),
        normalizeWS (promptConcat strings values) = "" →
        prompt (some name) true strings values = "")
    ∧ (∀ name : String,
        makePromptRender fs af objf (some name) true ["", ""] [JSVal.arr []]
          = "") := by
  have h1 : transformValue fs af objf (JSVal.arr []) = "" := by
    have hd : fs.find? (fun e => e.1 (JSVal.arr [])) = none :=
      List.find?_eq_none.mpr (by intro x hx; simp [h x hx])
    simp only [transformValue, hd]
    rfl
  refine ⟨h1, fun name strings values hn => prompt_empty_content hn, fun name => ?_⟩
  unfold makePromptRender
  rw [List.map_cons, List.map_nil, h1, List.map_cons, List.map_nil]
  apply prompt_empty_content
  have hc : promptConcat ["", ""] [JSVal.str ""] = "" := rfl
  rw [hc]
  rw [normalizeWS_eval (by decide)]
  decide

/-- Witness for C4: with no registered formatters, an empty array under a
named section renders to the empty string. -/
theorem claim4_witness :
    transformValue [] defaultArrayFormatter defaultObjectFormatter
        (JSVal.arr []) = ""
    ∧ (∀ (name : String) (strings : List String) (values : List JSVal),
        normalizeWS (promptConcat strings values) = "" →
        prompt (some name) true strings values = "")
    ∧ (∀ name : String,
        makePromptRender [] defaultArrayFormatter defaultObjectFormatter
          (some name) true ["", ""] [JSVal.arr []] = "") :=
  claim4_empty_array_empty_section [] defaultArrayFormatter
    defaultObjectFormatter (by intro e he; simp at he)

/-- C5 counterexample: with no registered formatters, interpolating `undefined`
through the composed renderer contributes the literal text `"undefined"` to
the rendered output, not the empty string. -/
theorem claim5_counterexample :
    makePromptRender [] defaultArrayFormatter defaultObjectFormatter none true
        ["", ""] [JSVal.undef] = "undefined"
    ∧ makePromptRender [] defaultArrayFormatter defaultObjectFormatter none true
        ["", ""] [JSVal.undef] ≠ "" := by
  have hrender : makePromptRender [] defaultArrayFormatter defaultObjectFormatter
      none true ["", ""] [JSVal.undef]
      = prompt none true ["", ""] [JSVal.str "undefined"] := rfl
  have hc : promptConcat ["", ""] [JSVal.str "undefined"] = "undefined" := rfl
  have hn : normalizeWS "undefined" = "undefined" := by
    rw [normalizeWS_eval (by decide)]
    decide
  have hp : prompt none true ["", ""] [JSVal.str "undefined"] = "undefined" := by
    rw [prompt]
    simp only [hc, hn]
    simp
  rw [hrender, hp]
  exact ⟨rfl, by decide⟩

/-- C5 (amended): an absent interpolated value (`undefined` or `null`) matched
by no registered predicate is transformed by the composed renderer into its
JavaScript string form — the literal text `"undefined"` or `"null"` — and never
raises; only the bare renderer turns absent values into empty text. -/
theorem claim5_absent_value_stringified
    (fs : List FormatterEntry) (af : ArrayFormatter) (objf : ObjectFormatter)
    (h1 : ∀ e ∈ fs, e.1 JSVal.undef = false)
    (h2 : ∀ e ∈ fs, e.1 JSVal.null = false) :
    transformValue fs af objf JSVal.undef = "undefined"
    ∧ transformValue fs af objf JSVal.null = "null"
    ∧ valueText (some JSVal.undef) = ""
    ∧ valueText (some JSVal.null) = "" := by
  have hu : fs.find? (fun e => e.1 JSVal.undef) = none :=
    List.find?_eq_none.mpr (by intro x hx; simp [h1 x hx])
  have hn : fs.find? (fun e => e.1 JSVal.null) = none :=
    List.find?_eq_none.mpr (by intro x hx; simp [h2 x hx])
  refine ⟨?_, ?_, rfl, rfl⟩
  · simp only [transformValue, hu]
    rfl
  · simp only [transformValue, hn]
    rfl

/-- Witness for the amended C5 at the empty registry. -/
theorem claim5_witness :
    transformValue [] defaultArrayFormatter defaultObjectFormatter JSVal.undef
        = "undefined"
    ∧ transformValue [] defaultArrayFormatter defaultObjectFormatter JSVal.null
        = "null"
    ∧ valueText (some JSVal.undef) = ""
    ∧ valueText (some JSVal.null) = "" :=
  claim5_absent_value_stringified [] defaultArrayFormatter
    defaultObjectFormatter (by intro e he; simp at he)
    (by intro e he; simp at he)

/-- C6: with a name that is non-empty after trimming and content that
normalizes to a non-empty string, the renderer returns exactly the leading
newline, the opening marker line, the content, the closing marker line and a
trailing newline. -/
theorem claim6_header_wrap_exact
    (name : String) (strings : List String) (values : List JSVal)
    (h1 : jsTrim name ≠ "")
    (h2 : normalizeWS (promptConcat strings values) ≠ "") :
    prompt (some name) true strings values
      = "\n==== " ++ name ++ " ====\n"
          ++ normalizeWS (promptConcat strings values)
          ++ "\n==== End of " ++ name ++ " ====\n" := by
  have hname : name ≠ "" := by
    intro habs
    apply h1
    rw [habs]
    rfl
  rw [prompt]
  simp only [Bool.not_true, if_false, h2, ite_false]
  rw [if_neg (show ¬ (false = true) by simp), if_pos ⟨hname, h1⟩]

/-- Witness for C6: the spec's own example
`render("Intro")(["  Hello world.  "])`. -/
theorem claim6_witness :
    prompt (some "Intro") true ["  Hello world.  "] []
      = "\n==== Intro ====\nHello world.\n==== End of Intro ====\n" := by
  have hc : promptConcat ["  Hello world.  "] [] = "  Hello world.  " := rfl
  have hn : normalizeWS (promptConcat ["  Hello world.  "] [])
      = "Hello world." := by
    rw [hc, normalizeWS_eval (by decide)]
    decide
  have h := claim6_header_wrap_exact "Intro" ["  Hello world.  "] []
    (by decide) (by rw [hn]; decide)
  rw [h, hn]
  rfl

/-- C7: a renderer call with a false condition returns exactly the empty
string, whatever the fragments, values and name. -/
theorem claim7_condition_false_empty (header : Option String)
    (strings : List String) (values : List JSVal) :
    prompt header false strings values = "" := by
  rw [prompt]
  simp

/-- C8: the renderer's whitespace normalization is idempotent — normalizing
already-normalized content is a no-op. -/
theorem claim8_normalize_idempotent (s : String) :
    normalizeWS (normalizeWS s) = normalizeWS s := by
  show (⟨normalizeChars (normalizeChars s.data)⟩ : String)
      = ⟨normalizeChars s.data⟩
  exact congrArg (fun l => (⟨l⟩ : String)) (normalizeChars_idem s.data)

/-- C9: the per-value transformation is the identity on strings matched by no
registered predicate, so an already-rendered string interpolated into another
call reaches the base renderer as literal text. -/
theorem claim9_unmatched_string_identity
    (fs : List FormatterEntry) (af : ArrayFormatter) (objf : ObjectFormatter)
    (s : String) (h : ∀ e ∈ fs, e.1 (JSVal.str s) = false) :
    transformValue fs af objf (JSVal.str s) = s
    ∧ ∀ (header : Option String) (condition : Bool) (strings : List String),
        makePromptRender fs af objf header condition strings [JSVal.str s]
          = prompt header condition strings [JSVal.str s] := by
  have hd : fs.find? (fun e => e.1 (JSVal.str s)) = none :=
    List.find?_eq_none.mpr (by intro x hx; simp [h x hx])
  have h1 : transformValue fs af objf (JSVal.str s) = s := by
    simp only [transformValue, hd]
    rfl
  refine ⟨h1, fun header condition strings => ?_⟩
  unfold makePromptRender
  rw [List.map_cons, List.map_nil, h1, List.map_cons, List.map_nil]

/-- Witness for C9: an already-rendered section string passes through an empty
registry unchanged. -/
theorem claim9_witness :
    transformValue [] defaultArrayFormatter defaultObjectFormatter
        (JSVal.str "\n==== In ====\nx\n==== End of In ====\n")
        = "\n==== In ====\nx\n==== End of In ====\n"
    ∧ ∀ (header : Option String) (condition : Bool) (strings : List String),
        makePromptRender [] defaultArrayFormatter defaultObjectFormatter header
            condition strings
            [JSVal.str "\n==== In ====\nx\n==== End of In ====\n"]
          = prompt header condition strings
              [JSVal.str "\n==== In ====\nx\n==== End of In ====\n"] :=
  claim9_unmatched_string_identity [] defaultArrayFormatter
    defaultObjectFormatter "\n==== In ====\nx\n==== End of In ====\n"
    (by intro e he; simp at he)

/-- C10: the per-value transformation runs on every interpolated value before
the base renderer consults the condition flag: a condition-false call returns
the empty string exactly when every formatter returns normally, and a
registered formatter that throws on a matched value makes the condition-false
call propagate the exception instead. -/
theorem claim10_transform_before_condition :
    (∀ (fs : List FormatterEntryE) (af : ArrayFormatterE) (objf : FormatterE)
        (header : Option String) (strings : List String)
        (values : List JSVal),
      makePromptRenderE fs af objf header false strings values
        = (values.mapM (transformValueE fs af objf)).map (fun _ => ""))
    ∧ makePromptRenderE [(fun _ => true, fun _ => Except.error "boom")]
        defaultArrayFormatterE defaultObjectFormatterE none false ["", ""]
        [JSVal.null] = Except.error "boom" := by
  constructor
  · intro fs af objf header strings values
    unfold makePromptRenderE
    cases hm : values.mapM (transformValueE fs af objf) with
    | error e => simp [hm, Except.map]
    | ok ts =>
      simp [hm, Except.map, prompt]
  · rfl
